import Mathlib

set_option maxRecDepth 100000

/-!
Shallow embedding of the Huffman compression engine
(src/BitInputStream.cpp, src/BitOutputStream.cpp, src/HCNode.cpp,
src/HCTree.cpp, src/compress.cpp, src/uncompress.cpp), together with
proofs of the specified properties.

Bytes are naturals below 256, bit streams are lists of naturals that are
0 or 1, and the two bit-buffered streams are explicit state machines.
-/

/-- Bit i of a byte value, as bitset indexing reads it: (b >> i) & 1. -/
def getBit (b i : Nat) : Nat := b / 2 ^ i % 2

/-- Replace bit i of b by v (already masked to one bit), as assignment to
a bitset element does: the digits above and below position i are kept. -/
def setBit (b i v : Nat) : Nat :=
  b / 2 ^ (i + 1) * 2 ^ (i + 1) + v % 2 * 2 ^ i + b % 2 ^ i

/-- State of a BitInputStream (src/BitInputStream.cpp): the 8-bit cache
buf, the consumed-bit index bufi, and the bytes the underlying istream
has not yet delivered. -/
structure BIS where
  buf : Nat
  bufi : Nat
  input : List Nat
  deriving DecidableEq

/-- Embeds BitInputStream::readBit: when the cache is exhausted
(bufi > 7) refill it from the byte source; a refill that observes
end-of-data returns -1 and leaves the state unchanged; otherwise the bit
at position 7 - bufi of the cache is returned and bufi advances. -/
def readBit (st : BIS) : Int × BIS :=
  if st.bufi > 7 then
    match st.input with
    | [] => (-1, st)
    | b :: rest => ((getBit b 7 : Int), ⟨b, 1, rest⟩)
  else ((getBit st.buf (7 - st.bufi) : Int), ⟨st.buf, st.bufi + 1, st.input⟩)

/-- State of a BitOutputStream (src/BitOutputStream.cpp): cache byte,
bit index, and the bytes already written to the underlying ostream. -/
structure BOS where
  buf : Nat
  bufi : Nat
  out : List Nat
  deriving DecidableEq

/-- Embeds BitOutputStream::flush: the cache byte is emitted only when it
holds at least one bit; cache and index reset afterwards. -/
def flushBOS (st : BOS) : BOS :=
  ⟨0, 0, if st.bufi > 0 then st.out ++ [st.buf] else st.out⟩

/-- Embeds BitOutputStream::writeBit: flush first when the cache is full
(bufi > 7), mask the argument to its least significant bit, store it at
position 7 - bufi of the cache, advance bufi. -/
def writeBit (st : BOS) (bit : Nat) : BOS :=
  let st1 := if st.bufi > 7 then flushBOS st else st
  ⟨setBit st1.buf (7 - st1.bufi) (bit % 2), st1.bufi + 1, st1.out⟩

/-- Writing a sequence of bits one writeBit call at a time. -/
def writeBits (st : BOS) (bits : List Nat) : BOS := bits.foldl writeBit st

/-- Modelled from the spec: BitOutputStream.hpp is not under src/.
Sections 3 and 4.2 start the writer with an empty cache (no bits placed,
nothing emitted yet). -/
def initBOS : BOS := ⟨0, 0, []⟩

/-- Modelled from the spec: BitInputStream.hpp is not under src/.
Sections 3 and 4.1 start the reader with an exhausted cache (position 8
requires a refill before the first bit), all bytes still pending. -/
def mkBIS (bytes : List Nat) : BIS := ⟨0, 8, bytes⟩

/-- HCNode (src/HCNode.cpp): count, symbol and the two children c0/c1.
The parent pointer of the C++ is recoverable from the downward shape of
the owned tree, so the embedding keeps only the children. -/
inductive HTree where
  | leaf (count : Nat) (symbol : Nat)
  | node (count : Nat) (symbol : Nat) (c0 c1 : HTree)
  deriving DecidableEq

def HTree.count : HTree → Nat
  | .leaf c _ => c
  | .node c _ _ _ => c

def HTree.symbol : HTree → Nat
  | .leaf _ s => s
  | .node _ s _ _ => s

/-- HCNode::operator< (src/HCNode.cpp): a higher count compares smaller;
with equal counts the smaller symbol compares smaller. -/
def nodeLT (a b : HTree) : Bool :=
  if a.count ≠ b.count then decide (b.count < a.count)
  else decide (a.symbol < b.symbol)

/-- The std::priority_queue of HCTree::build, modelled as a list sorted
by pop order (the head pops first; top() is the comparator-maximum).
Queue elements always carry pairwise distinct symbols, so the strict weak
order nodeLT is total on them and the pop sequence of the C++ heap is
fully determined by the comparator; the sorted list realises it. -/
def pqInsert (x : HTree) : List HTree → List HTree
  | [] => [x]
  | y :: ys => if nodeLT y x then x :: y :: ys else y :: pqInsert x ys

/-- The leaf-creation loop of HCTree::build: one leaf per index whose
frequency is non-zero, indices counted upward from i. -/
def initLeaves (i : Nat) : List Nat → List HTree
  | [] => []
  | c :: rest =>
    if c ≠ 0 then .leaf c i :: initLeaves (i + 1) rest
    else initLeaves (i + 1) rest

/-- The queue of HCTree::build after all leaves are pushed. -/
def initQueue (freqs : List Nat) : List HTree :=
  (initLeaves 0 freqs).foldl (fun q x => pqInsert x q) []

/-- The merge loop of HCTree::build: pop the two smallest nodes, combine
them into a parent (count = sum of counts, symbol copied from the first
pop, c0 = first pop, c1 = second pop), reinsert; stop when one node
remains.  The fuel argument, instantiated with the queue length, bounds
the number of iterations; every reachable call has enough fuel. -/
def buildLoop : Nat → List HTree → Option HTree
  | _, [] => none
  | _, [t] => some t
  | 0, _ :: _ :: _ => none
  | fuel + 1, a :: b :: rest =>
    buildLoop fuel (pqInsert (.node (a.count + b.count) a.symbol a b) rest)

/-- Embeds HCTree::build (src/HCTree.cpp): the root is absent iff every
frequency is zero. -/
def build (freqs : List Nat) : Option HTree :=
  buildLoop (initQueue freqs).length (initQueue freqs)

/-- The root-to-leaf code path of a symbol: 0 descends into c0, 1 into
c1.  HCTree::encode collects exactly these bits by walking parent links
from leaves[s] to the root and reversing; build gives each symbol at most
one leaf, so the upward walk and the downward path coincide. -/
def pathTo : HTree → Nat → Option (List Nat)
  | .leaf _ sym, s => if sym = s then some [] else none
  | .node _ _ l r, s =>
    match pathTo l s with
    | some p => some (0 :: p)
    | none =>
      match pathTo r s with
      | some p => some (1 :: p)
      | none => none

/-- The bits HCTree::encode(symbol, BitOutputStream&) emits: none when
leaves[symbol] is null, the single bit 0 when the leaf has no parent
(single-symbol tree), otherwise the root-to-leaf path. -/
def encodeBits (root : Option HTree) (s : Nat) : List Nat :=
  match root with
  | none => []
  | some t =>
    match pathTo t s with
    | none => []
    | some [] => [0]
    | some p => p

/-- Embeds HCTree::encode (src/HCTree.cpp): the emitted bits pushed
through the BitOutputStream. -/
def HCTree_encode (root : Option HTree) (s : Nat) (st : BOS) : BOS :=
  writeBits st (encodeBits root s)

/-- The per-symbol encode loop of compress.cpp (the single flush happens
after the loop, not here). -/
def encodeAll (root : Option HTree) (S : List Nat) (st : BOS) : BOS :=
  S.foldl (fun acc b => HCTree_encode root b acc) st

/-- Result of HCTree::decode(BitInputStream&): the symbol reached plus
the stream state, or the null-pointer dereference the C++ performs when
root is null. -/
inductive DecodeResult where
  | sym (s : Nat) (st : BIS)
  | nullDeref
  deriving DecidableEq

/-- The traversal loop of HCTree::decode: while the node has two
children, read a bit and descend, 1 to c1 and otherwise c0.  The C++
stores readBit's int into a bitset of one bit, which keeps only the low
bit of the two's complement value, so -1 at end-of-data becomes the bit
1; the low bit is the euclidean remainder mod 2. -/
def walkDecode : HTree → BIS → Nat × BIS
  | .leaf _ sym, st => (sym, st)
  | .node _ _ l r, st =>
    let res := readBit st
    if res.1 % 2 = 1 then walkDecode r res.2 else walkDecode l res.2

/-- Embeds HCTree::decode (src/HCTree.cpp): with a null root the very
first loop-condition check dereferences the missing node. -/
def HCTree_decode : Option HTree → BIS → DecodeResult
  | none, _ => .nullDeref
  | some t, st => .sym (walkDecode t st).1 (walkDecode t st).2

/-- The decode loop of uncompress.cpp: n calls to HCTree::decode,
collecting the produced symbols; a null dereference aborts. -/
def decodeN : Nat → Option HTree → BIS → Option (List Nat × BIS)
  | 0, _, st => some ([], st)
  | n + 1, root, st =>
    match HCTree_decode root st with
    | .nullDeref => none
    | .sym s st1 =>
      match decodeN n root st1 with
      | none => none
      | some (l, st2) => some (s :: l, st2)

/-- The frequency-scan loop of compress.cpp.  The loop condition
while ((cnext = fin.get())) tests the byte value itself, so the scan
stops not only at end of file but also at the first 0x00 byte. -/
def scanLoop : List Nat → List Nat → Nat → List Nat × Nat
  | [], freqs, fsize => (freqs, fsize)
  | c :: rest, freqs, fsize =>
    if c = 0 then (freqs, fsize)
    else scanLoop rest (freqs.set c (freqs.getD c 0 + 1)) (fsize + 1)

/-- The frequency table and byte count compress.cpp computes by scanning
the input, starting from 256 zero counts. -/
def scanFreqs (input : List Nat) : List Nat × Nat :=
  scanLoop input (List.replicate 256 0) 0

/-- The header-summing loop of uncompress.cpp: fsize accumulates the 256
frequencies of the header. -/
def uncompressFsize (freqs : List Nat) : Nat := freqs.foldl (· + ·) 0

/-- The eight bits of a byte, most significant first, as both streams
order them. -/
def byteBits (b : Nat) : List Nat := (List.range 8).map (fun i => getBit b (7 - i))

/-- A byte sequence viewed as its bit sequence. -/
def bytesBits : List Nat → List Nat
  | [] => []
  | b :: rest => byteBits b ++ bytesBits rest

/-- Bits still readable from a BitInputStream state: the unconsumed tail
of the cache, then the pending bytes. -/
def remBits (st : BIS) : List Nat :=
  (List.range (8 - st.bufi)).map (fun k => getBit st.buf (7 - st.bufi - k))
    ++ bytesBits st.input

/-- Bits already written into a BitOutputStream: the emitted bytes, then
the cached bits. -/
def emittedBits (st : BOS) : List Nat :=
  bytesBits st.out ++ (List.range st.bufi).map (fun k => getBit st.buf (7 - k))

/-- Writer-state invariant: at most 8 cached bits, a byte-sized cache,
and all cache bits below the written region still zero. -/
def BOSInv (st : BOS) : Prop :=
  st.bufi ≤ 8 ∧ st.buf < 256 ∧ st.buf % 2 ^ (8 - st.bufi) = 0

/-- The symbols at the leaves of a tree. -/
def leafSyms : HTree → List Nat
  | .leaf _ s => [s]
  | .node _ _ l r => leafSyms l ++ leafSyms r

/-- All leaf symbols of the trees in a queue. -/
def qSyms : List HTree → List Nat
  | [] => []
  | t :: ts => leafSyms t ++ qSyms ts

/-- Total count of the trees in a queue. -/
def qCounts : List HTree → Nat
  | [] => 0
  | t :: ts => t.count + qCounts ts

/-- Every internal node carries the sum of its children's counts. -/
def countsOk : HTree → Prop
  | .leaf _ _ => True
  | .node c _ l r => c = l.count + r.count ∧ countsOk l ∧ countsOk r

/-- The concatenated code bits of a symbol sequence, via pathTo. -/
def codesCat (t : HTree) : List Nat → List Nat
  | [] => []
  | b :: bs => (pathTo t b).getD [] ++ codesCat t bs

/-- The concatenated bits HCTree::encode emits for a symbol sequence. -/
def encBitsCat (root : Option HTree) : List Nat → List Nat
  | [] => []
  | b :: bs => encodeBits root b ++ encBitsCat root bs

theorem getBit_lt_two (b i : Nat) : getBit b i < 2 :=
  Nat.mod_lt _ (by omega)

theorem setBit_aligned (b i v : Nat) (h : b % 2 ^ (i + 1) = 0) :
    setBit b i v = b + v % 2 * 2 ^ i := by
  have hdvd : 2 ^ (i + 1) ∣ b := Nat.dvd_of_mod_eq_zero h
  have hdvd' : 2 ^ i ∣ b := dvd_trans (pow_dvd_pow 2 (Nat.le_succ i)) hdvd
  have h0 : b % 2 ^ i = 0 := by
    obtain ⟨B, hB⟩ := hdvd'
    subst hB
    exact Nat.mul_mod_right _ _
  unfold setBit
  rw [Nat.div_mul_cancel hdvd, h0]
  omega

theorem getBit_add_self (b i v : Nat) (h : b % 2 ^ (i + 1) = 0) :
    getBit (b + v % 2 * 2 ^ i) i = v % 2 := by
  obtain ⟨B, hB⟩ := Nat.dvd_of_mod_eq_zero h
  have hpos : 0 < 2 ^ i := Nat.pos_pow_of_pos i (by omega)
  subst hB
  unfold getBit
  rw [pow_succ]
  have : 2 ^ i * 2 * B + v % 2 * 2 ^ i = (2 * B + v % 2) * 2 ^ i := by ring
  rw [this, Nat.mul_div_cancel _ hpos, Nat.mul_add_mod]
  exact Nat.mod_mod_of_dvd _ (by norm_num)

theorem getBit_add_high (b i j v : Nat) (h : b % 2 ^ (i + 1) = 0)
    (hij : i < j) : getBit (b + v % 2 * 2 ^ i) j = getBit b j := by
  obtain ⟨B, hB⟩ := Nat.dvd_of_mod_eq_zero h
  subst hB
  have hsplit : 2 ^ j = 2 ^ (i + 1) * 2 ^ (j - i - 1) := by
    rw [← pow_add]
    congr 1
    omega
  have hpow : 2 ^ (i + 1) = 2 ^ i * 2 := pow_succ 2 i
  have hlt : v % 2 * 2 ^ i < 2 ^ (i + 1) := by
    have h1 : v % 2 ≤ 1 := by omega
    have h2 : v % 2 * 2 ^ i ≤ 1 * 2 ^ i := Nat.mul_le_mul_right _ h1
    have h3 : 0 < 2 ^ i := Nat.pos_pow_of_pos i (by omega)
    omega
  unfold getBit
  rw [hsplit, ← Nat.div_div_eq_div_mul, ← Nat.div_div_eq_div_mul]
  congr 2
  rw [Nat.mul_add_div (Nat.pos_pow_of_pos _ (by omega)),
    Nat.div_eq_of_lt hlt, Nat.mul_div_cancel_left _ (Nat.pos_pow_of_pos _ (by omega))]
  omega

theorem getBit_zero_low (b m j : Nat) (h : b % 2 ^ m = 0) (hj : j < m) :
    getBit b j = 0 := by
  obtain ⟨B, hB⟩ := Nat.dvd_of_mod_eq_zero h
  subst hB
  have hsplit : 2 ^ m = 2 ^ j * 2 ^ (m - j) := by
    rw [← pow_add]
    congr 1
    omega
  unfold getBit
  rw [hsplit, Nat.mul_assoc, Nat.mul_div_cancel_left _ (Nat.pos_pow_of_pos _ (by omega))]
  have : ∃ k, m - j = k + 1 := ⟨m - j - 1, by omega⟩
  obtain ⟨k, hk⟩ := this
  rw [hk, pow_succ, Nat.mul_comm (2 ^ k) 2, Nat.mul_assoc]
  exact Nat.mul_mod_right _ _

theorem range_map_head (n : Nat) (f : Nat → Nat) :
    (List.range (n + 1)).map f = f 0 :: (List.range n).map (fun k => f (k + 1)) := by
  rw [List.range_succ_eq_map]
  simp [List.map_map]

theorem byteBits_eq (b : Nat) :
    byteBits b = getBit b 7 :: (List.range 7).map (fun i => getBit b (6 - i)) := by
  unfold byteBits
  rw [show (8 : Nat) = 7 + 1 from rfl, range_map_head]
  congr 1

theorem readBit_rem (st : BIS) (b : Nat) (L : List Nat)
    (h : remBits st = b :: L) :
    ∃ st2, readBit st = ((b : Int), st2) ∧ remBits st2 = L := by
  by_cases hb : st.bufi > 7
  · unfold remBits at h
    rw [show 8 - st.bufi = 0 from by omega] at h
    simp only [List.range_zero, List.map_nil, List.nil_append] at h
    cases hi : st.input with
    | nil =>
      rw [hi] at h
      simp [bytesBits] at h
    | cons c rest =>
      rw [hi] at h
      unfold bytesBits at h
      rw [byteBits_eq] at h
      simp only [List.cons_append, List.cons.injEq] at h
      obtain ⟨hb1, hL⟩ := h
      refine ⟨⟨c, 1, rest⟩, ?_, ?_⟩
      · unfold readBit
        rw [if_pos hb, hi]
        subst hb1
        rfl
      · unfold remBits
        simp only
        rw [show (8 : Nat) - 1 = 7 from rfl, ← hL]
  · unfold remBits at h
    rw [show 8 - st.bufi = (7 - st.bufi) + 1 from by omega, range_map_head] at h
    simp only [List.cons_append, List.cons.injEq] at h
    obtain ⟨hb1, hL⟩ := h
    refine ⟨⟨st.buf, st.bufi + 1, st.input⟩, ?_, ?_⟩
    · unfold readBit
      rw [if_neg hb]
      subst hb1
      rfl
    · unfold remBits
      simp only
      rw [show 8 - (st.bufi + 1) = 7 - st.bufi from by omega, ← hL]
      congr 1
      apply List.map_congr_left
      intro k hk
      congr 1
      omega

theorem pathTo_bits (t : HTree) (s : Nat) :
    ∀ p, pathTo t s = some p → ∀ x ∈ p, x < 2 := by
  induction t with
  | leaf c sym =>
    intro p hp x hx
    unfold pathTo at hp
    split at hp
    · cases hp
      simp at hx
    · cases hp
  | node c sy l r ihl ihr =>
    intro p hp x hx
    unfold pathTo at hp
    cases hl : pathTo l s with
    | some q =>
      rw [hl] at hp
      cases hp
      rcases List.mem_cons.mp hx with h0 | h0
      · omega
      · exact ihl q hl x h0
    | none =>
      rw [hl] at hp
      cases hr : pathTo r s with
      | some q =>
        rw [hr] at hp
        cases hp
        rcases List.mem_cons.mp hx with h0 | h0
        · omega
        · exact ihr q hr x h0
      | none =>
        rw [hr] at hp
        cases hp

theorem walk_path (s : Nat) : ∀ (t : HTree) (p : List Nat) (st : BIS) (rest : List Nat),
    pathTo t s = some p → remBits st = p ++ rest →
    ∃ st2, walkDecode t st = (s, st2) ∧ remBits st2 = rest := by
  intro t
  induction t with
  | leaf c sym =>
    intro p st rest hp hrem
    unfold pathTo at hp
    split at hp
    · rename_i hsym
      cases hp
      subst hsym
      exact ⟨st, rfl, by simpa using hrem⟩
    · cases hp
  | node c sy l r ihl ihr =>
    intro p st rest hp hrem
    unfold pathTo at hp
    cases hl : pathTo l s with
    | some q =>
      rw [hl] at hp
      cases hp
      rw [List.cons_append] at hrem
      obtain ⟨st1, hread, hrem1⟩ := readBit_rem st 0 (q ++ rest) hrem
      obtain ⟨st2, hwalk, hrem2⟩ := ihl q st1 rest hl hrem1
      refine ⟨st2, ?_, hrem2⟩
      unfold walkDecode
      rw [hread]
      simpa using hwalk
    | none =>
      rw [hl] at hp
      cases hr : pathTo r s with
      | some q =>
        rw [hr] at hp
        cases hp
        rw [List.cons_append] at hrem
        obtain ⟨st1, hread, hrem1⟩ := readBit_rem st 1 (q ++ rest) hrem
        obtain ⟨st2, hwalk, hrem2⟩ := ihr q st1 rest hr hrem1
        refine ⟨st2, ?_, hrem2⟩
        unfold walkDecode
        rw [hread]
        simpa using hwalk
      | none =>
        rw [hr] at hp
        cases hp

theorem decodeN_codes (t : HTree) : ∀ (S : List Nat) (st : BIS) (rest : List Nat),
    (∀ b ∈ S, ∃ p, pathTo t b = some p) →
    remBits st = codesCat t S ++ rest →
    ∃ st2, decodeN S.length (some t) st = some (S, st2) ∧ remBits st2 = rest := by
  intro S
  induction S with
  | nil =>
    intro st rest hmem hrem
    exact ⟨st, rfl, by simpa [codesCat] using hrem⟩
  | cons b S ih =>
    intro st rest hmem hrem
    obtain ⟨p, hpb⟩ := hmem b (List.mem_cons_self b S)
    unfold codesCat at hrem
    rw [hpb, List.append_assoc] at hrem
    obtain ⟨st1, hwalk, hrem1⟩ :=
      walk_path b t p st (codesCat t S ++ rest) hpb hrem
    obtain ⟨st2, hdec, hrem2⟩ :=
      ih st1 rest (fun x hx => hmem x (List.mem_cons_of_mem b hx)) hrem1
    refine ⟨st2, ?_, hrem2⟩
    show decodeN (S.length + 1) (some t) st = some (b :: S, st2)
    have hdec1 : HCTree_decode (some t) st = .sym b st1 := by
      show DecodeResult.sym (walkDecode t st).1 (walkDecode t st).2 = _
      rw [hwalk]
    unfold decodeN
    rw [hdec1]
    show (match decodeN S.length (some t) st1 with
      | none => none
      | some (l, st2) => some (b :: l, st2)) = some (b :: S, st2)
    rw [hdec]

theorem decodeN_leaf (c s : Nat) : ∀ (n : Nat) (st : BIS),
    decodeN n (some (.leaf c s)) st = some (List.replicate n s, st) := by
  intro n
  induction n with
  | zero => intro st; rfl
  | succ m ih =>
    intro st
    have hdec1 : HCTree_decode (some (.leaf c s)) st = .sym s st := rfl
    unfold decodeN
    rw [hdec1]
    show (match decodeN m (some (HTree.leaf c s)) st with
      | none => none
      | some (l, st2) => some (s :: l, st2)) = some (List.replicate (m + 1) s, st)
    rw [ih st]
    rfl

theorem bytesBits_append : ∀ l1 l2 : List Nat,
    bytesBits (l1 ++ l2) = bytesBits l1 ++ bytesBits l2 := by
  intro l1 l2
  induction l1 with
  | nil => rfl
  | cons c rest ih =>
    show byteBits c ++ bytesBits (rest ++ l2) = byteBits c ++ bytesBits rest ++ bytesBits l2
    rw [ih, List.append_assoc]

theorem aligned_lt_256 (buf i w : Nat) (h : buf % 2 ^ (i + 1) = 0)
    (h256 : buf < 256) (hi : i ≤ 7) (hw : w ≤ 1) : buf + w * 2 ^ i < 256 := by
  obtain ⟨B, hB⟩ := Nat.dvd_of_mod_eq_zero h
  have hsplit : (2 : Nat) ^ (i + 1) * 2 ^ (7 - i) = 256 := by
    rw [← pow_add, show i + 1 + (7 - i) = 8 from by omega]
    norm_num
  have hBlt : B < 2 ^ (7 - i) := by
    have : 2 ^ (i + 1) * B < 2 ^ (i + 1) * 2 ^ (7 - i) := by
      rw [hsplit, ← hB]
      exact h256
    exact Nat.lt_of_mul_lt_mul_left this
  have hmul : 2 ^ (i + 1) * (B + 1) ≤ 256 := by
    rw [← hsplit]
    exact Nat.mul_le_mul_left _ hBlt
  have hwle : w * 2 ^ i ≤ 2 ^ i := by
    calc w * 2 ^ i ≤ 1 * 2 ^ i := Nat.mul_le_mul_right _ hw
      _ = 2 ^ i := one_mul _
  have hsucc : 2 ^ (i + 1) = 2 ^ i * 2 := pow_succ 2 i
  have hmulsucc : 2 ^ (i + 1) * (B + 1) = 2 ^ (i + 1) * B + 2 ^ (i + 1) :=
    Nat.mul_succ _ _
  have hpos : (0 : Nat) < 2 ^ i := Nat.pos_pow_of_pos i (by omega)
  omega

theorem writeBit_emitted (st : BOS) (b : Nat) (h : BOSInv st) :
    BOSInv (writeBit st b) ∧
      emittedBits (writeBit st b) = emittedBits st ++ [b % 2] := by
  obtain ⟨h8, h256, hmod⟩ := h
  by_cases hb : st.bufi > 7
  · have hbufi : st.bufi = 8 := by omega
    have hflush : flushBOS st = ⟨0, 0, st.out ++ [st.buf]⟩ := by
      unfold flushBOS
      rw [if_pos (by omega)]
    have hw : writeBit st b = ⟨setBit 0 7 (b % 2), 1, st.out ++ [st.buf]⟩ := by
      unfold writeBit
      rw [if_pos hb, hflush]
      rfl
    have hset : setBit 0 7 (b % 2) = 0 + b % 2 % 2 * 2 ^ 7 :=
      setBit_aligned 0 7 (b % 2) (by norm_num)
    have hmm : b % 2 % 2 = b % 2 := Nat.mod_mod_of_dvd _ dvd_rfl
    have hcache : bytesBits [st.buf] =
        (List.range st.bufi).map (fun k => getBit st.buf (7 - k)) := by
      rw [hbufi]
      show byteBits st.buf ++ bytesBits [] = _
      show byteBits st.buf ++ [] = _
      rw [List.append_nil]
      rfl
    constructor
    · rw [hw]
      refine ⟨?_, ?_, ?_⟩
      · show (1 : Nat) ≤ 8
        omega
      · show setBit 0 7 (b % 2) < 256
        rw [hset, hmm]
        have h1 : b % 2 ≤ 1 := by omega
        have h2 : b % 2 * 2 ^ 7 ≤ 1 * 2 ^ 7 := Nat.mul_le_mul_right _ h1
        norm_num at h2 ⊢
        omega
      · show setBit 0 7 (b % 2) % 2 ^ (8 - 1) = 0
        rw [hset, hmm, Nat.zero_add, show (8 : Nat) - 1 = 7 from rfl]
        exact Nat.mul_mod_left _ _
    · rw [hw]
      show bytesBits (st.out ++ [st.buf]) ++
          (List.range 1).map (fun k => getBit (setBit 0 7 (b % 2)) (7 - k)) =
        bytesBits st.out ++
          (List.range st.bufi).map (fun k => getBit st.buf (7 - k)) ++ [b % 2]
      rw [bytesBits_append, hcache, List.append_assoc, List.append_assoc]
      congr 2
      show List.map (fun k => getBit (setBit 0 7 (b % 2)) (7 - k)) [0] = [b % 2]
      simp only [List.map_cons, List.map_nil, Nat.sub_zero]
      rw [hset, getBit_add_self 0 7 (b % 2) (by norm_num), hmm]
  · have hieq : 8 - st.bufi = (7 - st.bufi) + 1 := by omega
    have hmod' : st.buf % 2 ^ ((7 - st.bufi) + 1) = 0 := by
      rw [← hieq]
      exact hmod
    have hw : writeBit st b =
        ⟨setBit st.buf (7 - st.bufi) (b % 2), st.bufi + 1, st.out⟩ := by
      unfold writeBit
      rw [if_neg hb]
    have hset : setBit st.buf (7 - st.bufi) (b % 2) =
        st.buf + b % 2 % 2 * 2 ^ (7 - st.bufi) :=
      setBit_aligned _ _ _ hmod'
    constructor
    · rw [hw]
      refine ⟨?_, ?_, ?_⟩
      · show st.bufi + 1 ≤ 8
        omega
      · show setBit st.buf (7 - st.bufi) (b % 2) < 256
        rw [hset]
        exact aligned_lt_256 _ _ _ hmod' h256 (by omega) (by omega)
      · show setBit st.buf (7 - st.bufi) (b % 2) % 2 ^ (8 - (st.bufi + 1)) = 0
        rw [hset, show 8 - (st.bufi + 1) = 7 - st.bufi from by omega]
        rw [Nat.add_mul_mod_self_right]
        have hdvd : (2 : Nat) ^ (7 - st.bufi) ∣ st.buf :=
          dvd_trans (pow_dvd_pow 2 (Nat.le_succ _)) (Nat.dvd_of_mod_eq_zero hmod')
        obtain ⟨B, hB⟩ := hdvd
        rw [hB]
        exact Nat.mul_mod_right _ _
    · rw [hw]
      show bytesBits st.out ++
          (List.range (st.bufi + 1)).map
            (fun k => getBit (setBit st.buf (7 - st.bufi) (b % 2)) (7 - k)) =
        bytesBits st.out ++
          (List.range st.bufi).map (fun k => getBit st.buf (7 - k)) ++ [b % 2]
      rw [List.range_succ, List.map_append, ← List.append_assoc]
      congr 1
      · congr 1
        apply List.map_congr_left
        intro k hk
        rw [hset]
        exact getBit_add_high st.buf (7 - st.bufi) (7 - k) (b % 2) hmod'
          (by have := List.mem_range.mp hk; omega)
      · simp only [List.map_cons, List.map_nil]
        rw [hset, getBit_add_self _ _ _ hmod',
          Nat.mod_mod_of_dvd _ dvd_rfl]

theorem writeBits_emitted (bits : List Nat) : ∀ st : BOS, BOSInv st →
    BOSInv (writeBits st bits) ∧
      emittedBits (writeBits st bits) = emittedBits st ++ bits.map (· % 2) := by
  induction bits with
  | nil =>
    intro st h
    exact ⟨h, by simp [writeBits]⟩
  | cons b bs ih =>
    intro st h
    obtain ⟨h1, h2⟩ := writeBit_emitted st b h
    obtain ⟨h3, h4⟩ := ih (writeBit st b) h1
    have hstep : writeBits st (b :: bs) = writeBits (writeBit st b) bs := rfl
    rw [hstep]
    refine ⟨h3, ?_⟩
    rw [h4, h2, List.map_cons, List.append_assoc]
    rfl

theorem encodeAll_emitted (root : Option HTree) (S : List Nat) : ∀ st : BOS, BOSInv st →
    BOSInv (encodeAll root S st) ∧
      emittedBits (encodeAll root S st) =
        emittedBits st ++ (encBitsCat root S).map (· % 2) := by
  induction S with
  | nil =>
    intro st h
    exact ⟨h, by simp [encodeAll, encBitsCat]⟩
  | cons b bs ih =>
    intro st h
    obtain ⟨h1, h2⟩ := writeBits_emitted (encodeBits root b) st h
    obtain ⟨h3, h4⟩ := ih (HCTree_encode root b st) h1
    have hstep : encodeAll root (b :: bs) st = encodeAll root bs (HCTree_encode root b st) := rfl
    rw [hstep]
    refine ⟨h3, ?_⟩
    rw [h4]
    show emittedBits (HCTree_encode root b st) ++ (encBitsCat root bs).map (· % 2) =
      emittedBits st ++ (encBitsCat root (b :: bs)).map (· % 2)
    unfold HCTree_encode
    rw [h2]
    have hcat : encBitsCat root (b :: bs) = encodeBits root b ++ encBitsCat root bs := rfl
    rw [hcat, List.map_append, List.append_assoc]

theorem flush_bits (st : BOS) (h : BOSInv st) :
    bytesBits (flushBOS st).out =
      emittedBits st ++ List.replicate ((8 - st.bufi) % 8) 0 := by
  obtain ⟨h8, h256, hmod⟩ := h
  by_cases h0 : st.bufi = 0
  · unfold flushBOS
    rw [if_neg (by omega)]
    unfold emittedBits
    rw [h0]
    simp
  · unfold flushBOS
    rw [if_pos (by omega)]
    show bytesBits (st.out ++ [st.buf]) = _
    rw [bytesBits_append]
    unfold emittedBits
    rw [List.append_assoc]
    congr 1
    show byteBits st.buf ++ [] = _
    rw [List.append_nil]
    rw [show (8 - st.bufi) % 8 = 8 - st.bufi from by omega]
    unfold byteBits
    conv_lhs => rw [show (8 : Nat) = st.bufi + (8 - st.bufi) from by omega]
    rw [List.range_add, List.map_append]
    congr 1
    apply List.eq_replicate_iff.mpr
    refine ⟨by simp, ?_⟩
    intro x hx
    obtain ⟨y, hy, hfy⟩ := List.mem_map.mp hx
    obtain ⟨k, hk, hgk⟩ := List.mem_map.mp hy
    rw [← hfy, ← hgk]
    apply getBit_zero_low st.buf (8 - st.bufi) _ hmod
    have := List.mem_range.mp hk
    omega

theorem pq_mem (x y : HTree) : ∀ l : List HTree, (y ∈ pqInsert x l ↔ y = x ∨ y ∈ l) := by
  intro l
  induction l with
  | nil => simp [pqInsert]
  | cons z zs ih =>
    unfold pqInsert
    by_cases hc : nodeLT z x
    · rw [if_pos hc]
      simp
    · rw [if_neg hc]
      simp only [List.mem_cons, ih]
      tauto

theorem pq_syms (x : HTree) (s : Nat) : ∀ l : List HTree,
    (s ∈ qSyms (pqInsert x l) ↔ s ∈ leafSyms x ∨ s ∈ qSyms l) := by
  intro l
  induction l with
  | nil =>
    show s ∈ qSyms [x] ↔ _
    unfold qSyms qSyms
    simp
  | cons z zs ih =>
    unfold pqInsert
    by_cases hc : nodeLT z x
    · rw [if_pos hc]
      show s ∈ leafSyms x ++ qSyms (z :: zs) ↔ _
      simp [List.mem_append]
    · rw [if_neg hc]
      show s ∈ leafSyms z ++ qSyms (pqInsert x zs) ↔ _
      have hz : s ∈ qSyms (z :: zs) ↔ s ∈ leafSyms z ∨ s ∈ qSyms zs := by
        show s ∈ leafSyms z ++ qSyms zs ↔ _
        simp [List.mem_append]
      simp only [List.mem_append, ih, hz]
      tauto

theorem pq_counts (x : HTree) : ∀ l : List HTree,
    qCounts (pqInsert x l) = x.count + qCounts l := by
  intro l
  induction l with
  | nil => rfl
  | cons z zs ih =>
    unfold pqInsert
    by_cases hc : nodeLT z x
    · rw [if_pos hc]
      show x.count + (z.count + qCounts zs) = x.count + (z.count + qCounts zs)
      rfl
    · rw [if_neg hc]
      show z.count + qCounts (pqInsert x zs) = x.count + (z.count + qCounts zs)
      rw [ih]
      omega

theorem pq_len (x : HTree) : ∀ l : List HTree,
    (pqInsert x l).length = l.length + 1 := by
  intro l
  induction l with
  | nil => rfl
  | cons z zs ih =>
    unfold pqInsert
    by_cases hc : nodeLT z x
    · rw [if_pos hc]
      rfl
    · rw [if_neg hc]
      show (pqInsert x zs).length + 1 = zs.length + 1 + 1
      rw [ih]

theorem fold_mem (y : HTree) : ∀ (l acc : List HTree),
    (y ∈ l.foldl (fun q x => pqInsert x q) acc ↔ y ∈ acc ∨ y ∈ l) := by
  intro l
  induction l with
  | nil => simp
  | cons z zs ih =>
    intro acc
    show y ∈ zs.foldl (fun q x => pqInsert x q) (pqInsert z acc) ↔ _
    rw [ih (pqInsert z acc)]
    simp only [pq_mem, List.mem_cons]
    tauto

theorem fold_syms (s : Nat) : ∀ (l acc : List HTree),
    (s ∈ qSyms (l.foldl (fun q x => pqInsert x q) acc) ↔
      s ∈ qSyms acc ∨ s ∈ qSyms l) := by
  intro l
  induction l with
  | nil =>
    intro acc
    show s ∈ qSyms acc ↔ s ∈ qSyms acc ∨ s ∈ qSyms []
    unfold qSyms
    simp
  | cons z zs ih =>
    intro acc
    show s ∈ qSyms (zs.foldl (fun q x => pqInsert x q) (pqInsert z acc)) ↔
      _ ∨ s ∈ qSyms (z :: zs)
    rw [ih (pqInsert z acc)]
    have hz : s ∈ qSyms (z :: zs) ↔ s ∈ leafSyms z ∨ s ∈ qSyms zs := by
      show s ∈ leafSyms z ++ qSyms zs ↔ _
      simp [List.mem_append]
    simp only [pq_syms, hz]
    tauto

theorem fold_counts : ∀ (l acc : List HTree),
    qCounts (l.foldl (fun q x => pqInsert x q) acc) = qCounts acc + qCounts l := by
  intro l
  induction l with
  | nil =>
    intro acc
    show qCounts acc = qCounts acc + qCounts []
    unfold qCounts
    omega
  | cons z zs ih =>
    intro acc
    show qCounts (zs.foldl (fun q x => pqInsert x q) (pqInsert z acc)) =
      qCounts acc + qCounts (z :: zs)
    rw [ih (pqInsert z acc), pq_counts]
    have hz : qCounts (z :: zs) = z.count + qCounts zs := rfl
    rw [hz]
    omega

theorem il_syms (s : Nat) : ∀ (fs : List Nat) (i : Nat),
    (s ∈ qSyms (initLeaves i fs) ↔
      ∃ k, k < fs.length ∧ fs.getD k 0 ≠ 0 ∧ s = i + k) := by
  intro fs
  induction fs with
  | nil =>
    intro i
    show s ∈ qSyms [] ↔ _
    unfold qSyms
    simp
  | cons c rest ih =>
    intro i
    unfold initLeaves
    by_cases hc : c ≠ 0
    · rw [if_pos hc]
      have hq : s ∈ qSyms (HTree.leaf c i :: initLeaves (i + 1) rest) ↔
          s = i ∨ s ∈ qSyms (initLeaves (i + 1) rest) := by
        show s ∈ leafSyms (.leaf c i) ++ qSyms (initLeaves (i + 1) rest) ↔ _
        show s ∈ [i] ++ qSyms (initLeaves (i + 1) rest) ↔ _
        simp
      rw [hq, ih (i + 1)]
      constructor
      · rintro (h0 | ⟨k, hk, hnz, hs⟩)
        · refine ⟨0, by simp, ?_, by omega⟩
          rw [List.getD_cons_zero]
          exact hc
        · refine ⟨k + 1, by simp; omega, ?_, by omega⟩
          rw [List.getD_cons_succ]
          exact hnz
      · rintro ⟨k, hk, hnz, hs⟩
        cases k with
        | zero => left; omega
        | succ j =>
          right
          refine ⟨j, by simp at hk; omega, ?_, by omega⟩
          rw [List.getD_cons_succ] at hnz
          exact hnz
    · rw [if_neg hc]
      push_neg at hc
      rw [ih (i + 1)]
      constructor
      · rintro ⟨k, hk, hnz, hs⟩
        refine ⟨k + 1, by simp; omega, ?_, by omega⟩
        rw [List.getD_cons_succ]
        exact hnz
      · rintro ⟨k, hk, hnz, hs⟩
        cases k with
        | zero =>
          rw [List.getD_cons_zero] at hnz
          exact absurd hc hnz
        | succ j =>
          refine ⟨j, by simp at hk; omega, ?_, by omega⟩
          rw [List.getD_cons_succ] at hnz
          exact hnz

theorem il_counts : ∀ (fs : List Nat) (i : Nat),
    qCounts (initLeaves i fs) = fs.sum := by
  intro fs
  induction fs with
  | nil => intro i; rfl
  | cons c rest ih =>
    intro i
    unfold initLeaves
    by_cases hc : c ≠ 0
    · rw [if_pos hc]
      show c + qCounts (initLeaves (i + 1) rest) = (c :: rest).sum
      rw [ih (i + 1), List.sum_cons]
    · rw [if_neg hc]
      push_neg at hc
      rw [ih (i + 1), List.sum_cons, hc]
      omega

theorem il_leaves : ∀ (fs : List Nat) (i : Nat) (y : HTree),
    y ∈ initLeaves i fs → ∃ c s0, y = .leaf c s0 := by
  intro fs
  induction fs with
  | nil => intro i y h; cases h
  | cons c rest ih =>
    intro i y h
    unfold initLeaves at h
    by_cases hc : c ≠ 0
    · rw [if_pos hc] at h
      rcases List.mem_cons.mp h with h0 | h0
      · exact ⟨c, i, h0⟩
      · exact ih (i + 1) y h0
    · rw [if_neg hc] at h
      exact ih (i + 1) y h

theorem il_nil : ∀ (fs : List Nat) (i : Nat),
    (∀ j, j < fs.length → fs.getD j 0 = 0) → initLeaves i fs = [] := by
  intro fs
  induction fs with
  | nil => intro i h; rfl
  | cons c rest ih =>
    intro i h
    have hc0 : c = 0 := by simpa using h 0 (by simp)
    unfold initLeaves
    rw [if_neg (by omega)]
    apply ih (i + 1)
    intro j hj
    have := h (j + 1) (by simp; omega)
    rwa [List.getD_cons_succ] at this

theorem il_single : ∀ (fs : List Nat) (i k : Nat), k < fs.length →
    fs.getD k 0 ≠ 0 → (∀ j, j < fs.length → j ≠ k → fs.getD j 0 = 0) →
    initLeaves i fs = [.leaf (fs.getD k 0) (i + k)] := by
  intro fs
  induction fs with
  | nil => intro i k hk; simp at hk
  | cons c rest ih =>
    intro i k hk hnz hz
    unfold initLeaves
    cases k with
    | zero =>
      rw [List.getD_cons_zero] at hnz ⊢
      rw [if_pos hnz]
      have hall : ∀ j, j < rest.length → rest.getD j 0 = 0 := by
        intro j hj
        have := hz (j + 1) (by simp; omega) (by omega)
        rwa [List.getD_cons_succ] at this
      rw [il_nil rest (i + 1) hall]
      congr 1
    | succ j =>
      have hc0 : c = 0 := by
        have := hz 0 (by simp) (by omega)
        rwa [List.getD_cons_zero] at this
      rw [if_neg (by omega)]
      rw [List.getD_cons_succ]
      have := ih (i + 1) j (by simp at hk; omega)
        (by rwa [List.getD_cons_succ] at hnz)
        (by
          intro j2 hj2 hne
          have := hz (j2 + 1) (by simp; omega) (by omega)
          rwa [List.getD_cons_succ] at this)
      rw [this]
      congr 2
      omega

theorem bl_syms : ∀ (fuel : Nat) (q : List HTree) (t : HTree),
    buildLoop fuel q = some t → ∀ s, (s ∈ leafSyms t ↔ s ∈ qSyms q) := by
  intro fuel
  induction fuel with
  | zero =>
    intro q t h s
    match q with
    | [] => cases h
    | [u] =>
      injection h with h'
      subst h'
      show s ∈ leafSyms u ↔ s ∈ leafSyms u ++ qSyms []
      unfold qSyms
      simp
    | a :: b :: rest => cases h
  | succ n ih =>
    intro q t h s
    match q with
    | [] => cases h
    | [u] =>
      injection h with h'
      subst h'
      show s ∈ leafSyms u ↔ s ∈ leafSyms u ++ qSyms []
      unfold qSyms
      simp
    | a :: b :: rest =>
      have hstep : buildLoop n (pqInsert (.node (a.count + b.count) a.symbol a b) rest) = some t := h
      rw [ih _ t hstep s, pq_syms]
      show s ∈ leafSyms a ++ leafSyms b ∨ s ∈ qSyms rest ↔
        s ∈ leafSyms a ++ (leafSyms b ++ qSyms rest)
      simp only [List.mem_append]
      tauto

theorem bl_counts : ∀ (fuel : Nat) (q : List HTree) (t : HTree),
    buildLoop fuel q = some t → t.count = qCounts q := by
  intro fuel
  induction fuel with
  | zero =>
    intro q t h
    match q with
    | [] => cases h
    | [u] =>
      injection h with h'
      subst h'
      show u.count = u.count + qCounts []
      unfold qCounts
      omega
    | a :: b :: rest => cases h
  | succ n ih =>
    intro q t h
    match q with
    | [] => cases h
    | [u] =>
      injection h with h'
      subst h'
      show u.count = u.count + qCounts []
      unfold qCounts
      omega
    | a :: b :: rest =>
      have hstep : buildLoop n (pqInsert (.node (a.count + b.count) a.symbol a b) rest) = some t := h
      rw [ih _ t hstep, pq_counts]
      show (HTree.node (a.count + b.count) a.symbol a b).count + qCounts rest =
        a.count + (b.count + qCounts rest)
      show a.count + b.count + qCounts rest = a.count + (b.count + qCounts rest)
      omega

theorem bl_ok : ∀ (fuel : Nat) (q : List HTree) (t : HTree),
    (∀ y ∈ q, countsOk y) → buildLoop fuel q = some t → countsOk t := by
  intro fuel
  induction fuel with
  | zero =>
    intro q t hq h
    match q with
    | [] => cases h
    | [u] =>
      injection h with h'
      subst h'
      exact hq u (by simp)
    | a :: b :: rest => cases h
  | succ n ih =>
    intro q t hq h
    match q with
    | [] => cases h
    | [u] =>
      injection h with h'
      subst h'
      exact hq u (by simp)
    | a :: b :: rest =>
      have hstep : buildLoop n (pqInsert (.node (a.count + b.count) a.symbol a b) rest) = some t := h
      apply ih _ t _ hstep
      intro y hy
      rcases (pq_mem _ y rest).mp hy with h0 | h0
      · subst h0
        show a.count + b.count = a.count + b.count ∧ countsOk a ∧ countsOk b
        exact ⟨rfl, hq a (by simp), hq b (by simp)⟩
      · exact hq y (by simp [h0])

theorem bl_some : ∀ (fuel : Nat) (q : List HTree), q ≠ [] → q.length ≤ fuel + 1 →
    ∃ t, buildLoop fuel q = some t := by
  intro fuel
  induction fuel with
  | zero =>
    intro q hne hlen
    match q with
    | [] => exact absurd rfl hne
    | [u] => exact ⟨u, rfl⟩
    | a :: b :: rest => simp at hlen
  | succ n ih =>
    intro q hne hlen
    match q with
    | [] => exact absurd rfl hne
    | [u] => exact ⟨u, rfl⟩
    | a :: b :: rest =>
      apply ih
      · cases hpq : pqInsert (.node (a.count + b.count) a.symbol a b) rest with
        | nil =>
          have := pq_len (.node (a.count + b.count) a.symbol a b) rest
          rw [hpq] at this
          simp at this
        | cons z zs => simp
      · rw [pq_len]
        simp at hlen
        omega

theorem pathTo_leaf (c sym s : Nat) :
    pathTo (.leaf c sym) s = if sym = s then some [] else none := rfl

theorem pathTo_node (c sy : Nat) (l r : HTree) (s : Nat) :
    pathTo (.node c sy l r) s =
      match pathTo l s with
      | some p => some (0 :: p)
      | none =>
        match pathTo r s with
        | some p => some (1 :: p)
        | none => none := rfl

theorem pathTo_isSome (s : Nat) : ∀ t : HTree,
    (∃ p, pathTo t s = some p) ↔ s ∈ leafSyms t := by
  intro t
  induction t with
  | leaf c sym =>
    show _ ↔ s ∈ [sym]
    rw [pathTo_leaf]
    by_cases hsym : sym = s
    · rw [if_pos hsym]
      simp [hsym]
    · rw [if_neg hsym]
      simp
      omega
  | node c sy l r ihl ihr =>
    show _ ↔ s ∈ leafSyms l ++ leafSyms r
    rw [List.mem_append, ← ihl, ← ihr, pathTo_node]
    cases hl : pathTo l s with
    | some q => simp
    | none =>
      cases hr : pathTo r s with
      | some q => simp
      | none => simp

theorem pathTo_ext (s1 s2 : Nat) : ∀ (t : HTree) (p1 p2 r : List Nat),
    pathTo t s1 = some p1 → pathTo t s2 = some p2 → p1 ++ r = p2 → s1 = s2 := by
  intro t
  induction t with
  | leaf c sym =>
    intro p1 p2 r h1 h2 hr
    unfold pathTo at h1 h2
    split at h1
    · split at h2
      · omega
      · cases h2
    · cases h1
  | node c sy l r ihl ihr =>
    intro p1 p2 rr h1 h2 hr
    unfold pathTo at h1 h2
    cases hl1 : pathTo l s1 with
    | some q1 =>
      rw [hl1] at h1
      cases h1
      cases hl2 : pathTo l s2 with
      | some q2 =>
        rw [hl2] at h2
        cases h2
        rw [List.cons_append] at hr
        injection hr with _ hr'
        exact ihl q1 q2 rr hl1 hl2 hr'
      | none =>
        rw [hl2] at h2
        cases hr2 : pathTo r s2 with
        | some q2 =>
          rw [hr2] at h2
          cases h2
          rw [List.cons_append] at hr
          injection hr with hbit
          omega
        | none =>
          rw [hr2] at h2
          cases h2
    | none =>
      rw [hl1] at h1
      cases hr1 : pathTo r s1 with
      | some q1 =>
        rw [hr1] at h1
        cases h1
        cases hl2 : pathTo l s2 with
        | some q2 =>
          rw [hl2] at h2
          cases h2
          rw [List.cons_append] at hr
          injection hr with hbit
          omega
        | none =>
          rw [hl2] at h2
          cases hr2 : pathTo r s2 with
          | some q2 =>
            rw [hr2] at h2
            cases h2
            rw [List.cons_append] at hr
            injection hr with _ hr'
            exact ihr q1 q2 rr hr1 hr2 hr'
          | none =>
            rw [hr2] at h2
            cases h2
      | none =>
        rw [hr1] at h1
        cases h1

theorem build_syms (f : List Nat) (t : HTree) (h : build f = some t) (s : Nat) :
    s ∈ leafSyms t ↔ (s < f.length ∧ f.getD s 0 ≠ 0) := by
  unfold build at h
  rw [bl_syms _ _ _ h s]
  unfold initQueue
  rw [fold_syms, il_syms]
  constructor
  · rintro (hfalse | ⟨k, hk, hnz, hs⟩)
    · unfold qSyms at hfalse
      cases hfalse
    · have hks : k = s := by omega
      subst hks
      exact ⟨hk, hnz⟩
  · rintro ⟨h1, h2⟩
    right
    exact ⟨s, h1, h2, by omega⟩

theorem build_exists (f : List Nat) (k : Nat) (hk : k < f.length)
    (hnz : f.getD k 0 ≠ 0) : ∃ t, build f = some t := by
  unfold build
  apply bl_some
  · intro hnil
    have hmem : k ∈ qSyms (initQueue f) := by
      unfold initQueue
      rw [fold_syms]
      right
      exact (il_syms k f 0).mpr ⟨k, hk, hnz, by omega⟩
    rw [hnil] at hmem
    unfold qSyms at hmem
    cases hmem
  · omega

theorem build_count (f : List Nat) (t : HTree) (h : build f = some t) :
    t.count = f.sum := by
  unfold build at h
  rw [bl_counts _ _ _ h]
  unfold initQueue
  rw [fold_counts, il_counts]
  show qCounts [] + f.sum = f.sum
  unfold qCounts
  omega

theorem build_countsOk (f : List Nat) (t : HTree) (h : build f = some t) :
    countsOk t := by
  unfold build at h
  apply bl_ok _ _ _ _ h
  intro y hy
  unfold initQueue at hy
  rcases (fold_mem y (initLeaves 0 f) []).mp hy with h0 | h0
  · cases h0
  · obtain ⟨c, s0, hleaf⟩ := il_leaves f 0 y h0
    subst hleaf
    show True
    trivial

theorem foldl_add_eq_sum : ∀ (l : List Nat) (n : Nat),
    l.foldl (· + ·) n = n + l.sum := by
  intro l
  induction l with
  | nil => intro n; simp
  | cons c rest ih =>
    intro n
    show rest.foldl (· + ·) (n + c) = n + (c :: rest).sum
    rw [ih, List.sum_cons]
    omega

theorem encodeBits_some_eq (t : HTree) (s : Nat) :
    encodeBits (some t) s =
      match pathTo t s with
      | none => []
      | some [] => [0]
      | some p => p := rfl

theorem encodeBits_node (c sy : Nat) (l r : HTree) (s : Nat) (p : List Nat)
    (hp : pathTo (.node c sy l r) s = some p) :
    encodeBits (some (.node c sy l r)) s = p := by
  have hne : p ≠ [] := by
    rw [pathTo_node] at hp
    cases hl : pathTo l s with
    | some q =>
      rw [hl] at hp
      cases hp
      simp
    | none =>
      rw [hl] at hp
      cases hr : pathTo r s with
      | some q =>
        rw [hr] at hp
        cases hp
        simp
      | none =>
        rw [hr] at hp
        cases hp
  rw [encodeBits_some_eq, hp]
  cases p with
  | nil => exact absurd rfl hne
  | cons b q => rfl

theorem encodeBits_lt (root : Option HTree) (s : Nat) :
    ∀ x ∈ encodeBits root s, x < 2 := by
  intro x hx
  cases root with
  | none => cases hx
  | some t =>
    rw [encodeBits_some_eq] at hx
    cases hp : pathTo t s with
    | none =>
      rw [hp] at hx
      cases hx
    | some p =>
      rw [hp] at hx
      cases p with
      | nil =>
        simp at hx
        omega
      | cons b q => exact pathTo_bits t s (b :: q) hp x hx

theorem encBitsCat_lt (root : Option HTree) : ∀ S : List Nat,
    ∀ x ∈ encBitsCat root S, x < 2 := by
  intro S
  induction S with
  | nil => intro x hx; cases hx
  | cons b bs ih =>
    intro x hx
    have hcat : encBitsCat root (b :: bs) = encodeBits root b ++ encBitsCat root bs := rfl
    rw [hcat] at hx
    rcases List.mem_append.mp hx with h0 | h0
    · exact encodeBits_lt root b x h0
    · exact ih x h0

theorem map_mod_id : ∀ l : List Nat, (∀ x ∈ l, x < 2) → l.map (· % 2) = l := by
  intro l
  induction l with
  | nil => intro h; rfl
  | cons b bs ih =>
    intro h
    rw [List.map_cons, ih (fun x hx => h x (List.mem_cons_of_mem b hx)),
      Nat.mod_eq_of_lt (h b (List.mem_cons_self b bs))]

theorem cat_eq (t : HTree) : ∀ S : List Nat,
    (∀ b ∈ S, ∃ p, pathTo t b = some p ∧ encodeBits (some t) b = p) →
    encBitsCat (some t) S = codesCat t S := by
  intro S
  induction S with
  | nil => intro h; rfl
  | cons b bs ih =>
    intro h
    obtain ⟨p, hp, he⟩ := h b (List.mem_cons_self b bs)
    have h1 : encBitsCat (some t) (b :: bs) = encodeBits (some t) b ++ encBitsCat (some t) bs := rfl
    have h2 : codesCat t (b :: bs) = (pathTo t b).getD [] ++ codesCat t bs := rfl
    rw [h1, h2, he, hp, ih (fun x hx => h x (List.mem_cons_of_mem b hx))]
    rfl

theorem init_inv : BOSInv initBOS := by
  refine ⟨?_, ?_, ?_⟩ <;> show _ <;> decide

theorem remBits_mkBIS (bytes : List Nat) : remBits (mkBIS bytes) = bytesBits bytes := by
  unfold remBits mkBIS
  simp

theorem bytesBits_length : ∀ l : List Nat, (bytesBits l).length = 8 * l.length := by
  intro l
  induction l with
  | nil => rfl
  | cons c rest ih =>
    show (byteBits c ++ bytesBits rest).length = 8 * (c :: rest).length
    rw [List.length_append, ih]
    unfold byteBits
    simp
    omega

theorem emittedBits_length (st : BOS) :
    (emittedBits st).length = 8 * st.out.length + st.bufi := by
  unfold emittedBits
  rw [List.length_append, List.length_map, List.length_range, bytesBits_length]

theorem flush_len (st : BOS) : (flushBOS st).out.length =
    st.out.length + (if st.bufi > 0 then 1 else 0) := by
  unfold flushBOS
  by_cases hb : st.bufi > 0
  · rw [if_pos hb, if_pos hb]
    simp
  · rw [if_neg hb, if_neg hb]
    simp

theorem written_len (bits : List Nat) :
    (flushBOS (writeBits initBOS bits)).out.length = (bits.length + 7) / 8 := by
  obtain ⟨hinv, hemit⟩ := writeBits_emitted bits initBOS init_inv
  obtain ⟨h8, hlt, hmod⟩ := hinv
  have hlen := congrArg List.length hemit
  rw [emittedBits_length, List.length_append, emittedBits_length,
    List.length_map] at hlen
  have hinit1 : initBOS.out.length = 0 := rfl
  have hinit2 : initBOS.bufi = 0 := rfl
  rw [hinit1, hinit2] at hlen
  rw [flush_len]
  by_cases hb : (writeBits initBOS bits).bufi > 0
  · rw [if_pos hb]
    omega
  · rw [if_neg hb]
    omega

/-- Claim C6: when the underlying byte source is exhausted and the bit
cache is fully consumed, BitInputStream::readBit returns the end-of-stream
value -1 and leaves the state unchanged, so every subsequent call returns
end-of-stream again; it never fabricates a 0 bit past the last byte. -/
theorem claim_C6_readBit_eof (st : BIS) (h1 : st.bufi > 7) (h2 : st.input = []) :
    readBit st = (-1, st) := by
  unfold readBit
  rw [if_pos h1, h2]

/-- Witness for claim C6 at the concrete exhausted state. -/
theorem claim_C6_witness : readBit ⟨0, 8, []⟩ = (-1, ⟨0, 8, []⟩) :=
  claim_C6_readBit_eof ⟨0, 8, []⟩ (by decide) rfl

/-- Claim C7: from an empty BitOutputStream, writing exactly 8, 9 and 16
bits followed by flush produces 1, 2 and 2 output bytes; flush on a
non-empty partial cache emits exactly one byte, and flush on an empty
cache emits zero bytes. -/
theorem claim_C7_bit_boundary (b8 b9 b16 : List Nat) (st : BOS)
    (h8 : b8.length = 8) (h9 : b9.length = 9) (h16 : b16.length = 16) :
    (flushBOS (writeBits initBOS b8)).out.length = 1 ∧
    (flushBOS (writeBits initBOS b9)).out.length = 2 ∧
    (flushBOS (writeBits initBOS b16)).out.length = 2 ∧
    (st.bufi > 0 → (flushBOS st).out.length = st.out.length + 1) ∧
    (st.bufi = 0 → (flushBOS st).out = st.out) := by
  refine ⟨?_, ?_, ?_, ?_, ?_⟩
  · rw [written_len, h8]
  · rw [written_len, h9]
  · rw [written_len, h16]
  · intro hpos
    rw [flush_len, if_pos hpos]
  · intro hzero
    unfold flushBOS
    rw [if_neg (by omega)]

/-- Witness for claim C7 at concrete bit sequences and a concrete
partial-byte state. -/
theorem claim_C7_witness :
    (flushBOS (writeBits initBOS (List.replicate 8 1))).out.length = 1 ∧
    (flushBOS (writeBits initBOS (List.replicate 9 1))).out.length = 2 ∧
    (flushBOS (writeBits initBOS (List.replicate 16 1))).out.length = 2 ∧
    ((⟨128, 3, []⟩ : BOS).bufi > 0 →
      (flushBOS ⟨128, 3, []⟩).out.length = (⟨128, 3, []⟩ : BOS).out.length + 1) ∧
    ((⟨128, 3, []⟩ : BOS).bufi = 0 → (flushBOS ⟨128, 3, []⟩).out = (⟨128, 3, []⟩ : BOS).out) :=
  claim_C7_bit_boundary (List.replicate 8 1) (List.replicate 9 1)
    (List.replicate 16 1) ⟨128, 3, []⟩ (by decide) (by decide) (by decide)

/-- Claim C9: HCTree::encode of a byte value whose frequency count was
zero (no leaf) is a no-op: it writes no bits and leaves the
BitOutputStream state, including the emitted bytes, unchanged. -/
theorem claim_C9_encode_absent (f : List Nat) (v : Nat) (st : BOS)
    (hz : f.getD v 0 = 0) : HCTree_encode (build f) v st = st := by
  cases hb : build f with
  | none => rfl
  | some t =>
    have hnot : v ∉ leafSyms t := by
      rw [build_syms f t hb v]
      rintro ⟨h1, h2⟩
      exact h2 hz
    have hnone : pathTo t v = none := by
      cases hp : pathTo t v with
      | none => rfl
      | some p => exact absurd ((pathTo_isSome v t).mp ⟨p, hp⟩) hnot
    show writeBits st (encodeBits (some t) v) = st
    rw [encodeBits_some_eq, hnone]
    rfl

/-- Witness for claim C9: encoding the absent byte 66 on a table that
only contains 65. -/
theorem claim_C9_witness :
    HCTree_encode (build ((List.replicate 256 0).set 65 1)) 66 ⟨0, 0, []⟩ = ⟨0, 0, []⟩ :=
  claim_C9_encode_absent ((List.replicate 256 0).set 65 1) 66 ⟨0, 0, []⟩ (by decide)

/-- Claim C10: after a successful build the root count equals the header
sum the decompressor computes (the sum of all frequencies), and every
internal node's count is the sum of its children's counts. -/
theorem claim_C10_counts (f : List Nat) (t : HTree) (h : build f = some t) :
    t.count = uncompressFsize f ∧ countsOk t := by
  constructor
  · rw [build_count f t h]
    unfold uncompressFsize
    rw [foldl_add_eq_sum]
    omega
  · exact build_countsOk f t h

/-- Witness for claim C10 on the concrete two-symbol table 65 and 66. -/
theorem claim_C10_witness :
    (HTree.node 2 66 (.leaf 1 66) (.leaf 1 65)).count =
        uncompressFsize (((List.replicate 256 0).set 65 1).set 66 1) ∧
      countsOk (HTree.node 2 66 (.leaf 1 66) (.leaf 1 65)) :=
  claim_C10_counts (((List.replicate 256 0).set 65 1).set 66 1)
    (HTree.node 2 66 (.leaf 1 66) (.leaf 1 65)) (by decide)

/-- Claim C8: a table whose single non-zero entry is symbol s builds a
lone-leaf tree; HCTree::encode of s emits the single bit 0, and
HCTree::decode returns s while reading zero bits (the stream state is
untouched). -/
theorem claim_C8_single_symbol (f : List Nat) (s : Nat) (hs : s < f.length)
    (hnz : f.getD s 0 ≠ 0)
    (honly : ∀ j, j < f.length → j ≠ s → f.getD j 0 = 0) :
    build f = some (.leaf (f.getD s 0) s) ∧
    encodeBits (build f) s = [0] ∧
    ∀ st, HCTree_decode (build f) st = .sym s st := by
  have hinit : initLeaves 0 f = [.leaf (f.getD s 0) (0 + s)] :=
    il_single f 0 s hs hnz honly
  rw [Nat.zero_add] at hinit
  have hq : initQueue f = [.leaf (f.getD s 0) s] := by
    unfold initQueue
    rw [hinit]
    rfl
  have hb : build f = some (.leaf (f.getD s 0) s) := by
    unfold build
    rw [hq]
    rfl
  refine ⟨hb, ?_, ?_⟩
  · rw [hb, encodeBits_some_eq, pathTo_leaf, if_pos rfl]
  · intro st
    rw [hb]
    rfl

/-- Witness for claim C8 on the table with the single entry 65 -> 100. -/
theorem claim_C8_witness :
    build ((List.replicate 256 0).set 65 100) = some (.leaf 100 65) ∧
    encodeBits (build ((List.replicate 256 0).set 65 100)) 65 = [0] ∧
    ∀ st, HCTree_decode (build ((List.replicate 256 0).set 65 100)) st = .sym 65 st := by
  have h := claim_C8_single_symbol ((List.replicate 256 0).set 65 100) 65
    (by decide) (by decide) (by decide)
  exact h

/-- Claim C2 is violated by the code: with the two-leaf tree built from
counts 65 -> 1 and 66 -> 1 and an exhausted bit source, readBit signals
end-of-stream with -1, yet HCTree::decode stores that -1 into a one-bit
bitset (turning it into the bit 1), walks to leaf 65 and returns its
symbol instead of failing; the repository's own regression test
regression_decode_eof_during_traversal expects -1 here. -/
theorem claim_C2_eof_eval :
    readBit ⟨0, 8, []⟩ = (-1, ⟨0, 8, []⟩) ∧
    build (((List.replicate 256 0).set 65 1).set 66 1) =
      some (.node 2 66 (.leaf 1 66) (.leaf 1 65)) ∧
    HCTree_decode (build (((List.replicate 256 0).set 65 1).set 66 1)) ⟨0, 8, []⟩ =
      .sym 65 ⟨0, 8, []⟩ := by
  refine ⟨rfl, by decide, by decide⟩

/-- Claim C3 is violated by the code: an all-zero table builds an absent
root, and HCTree::decode then dereferences the null root in its loop
condition (undefined behaviour, modelled as nullDeref) instead of
reporting a failure; the repository's own regression test
regression_decode_empty_tree expects -1 here. -/
theorem claim_C3_null_root_eval :
    build (List.replicate 256 0) = none ∧
    ∀ st : BIS, HCTree_decode none st = .nullDeref := by
  refine ⟨by decide, fun st => rfl⟩

/-- Claim C4 is violated by the code: the scan loop of compress.cpp tests
the byte value in its loop condition, so input [0, 65] stops at the
leading 0x00 byte: every count stays 0 and fsize stays 0, although the
input holds two bytes, one 0 and one 65. -/
theorem claim_C4_scan_eval :
    (scanFreqs [0, 65]).2 = 0 ∧
    (scanFreqs [0, 65]).1.sum = 0 ∧
    ([0, 65] : List Nat).length = 2 ∧
    (scanFreqs [0, 65]).1.getD 0 0 = 0 ∧
    ([0, 65] : List Nat).count 0 = 1 ∧
    (scanFreqs [0, 65]).1.getD 65 0 = 0 ∧
    ([0, 65] : List Nat).count 65 = 1 := by
  refine ⟨rfl, by decide, rfl, rfl, by decide, rfl, by decide⟩

/-- Claim C5: for a table with at least two non-zero counts (two distinct
symbols with non-zero counts), the bit sequences HCTree::encode emits
form a prefix-free set: the code of one symbol, extended by any bit list,
never equals the code of a different symbol. -/
theorem claim_C5_codes_unambiguous (f : List Nat) (s1 s2 : Nat) (rr : List Nat)
    (h1 : s1 < f.length) (hz1 : f.getD s1 0 ≠ 0)
    (h2 : s2 < f.length) (hz2 : f.getD s2 0 ≠ 0) (hne : s1 ≠ s2) :
    encodeBits (build f) s1 ++ rr ≠ encodeBits (build f) s2 := by
  obtain ⟨t, hb⟩ := build_exists f s1 h1 hz1
  rw [hb]
  have hm1 : s1 ∈ leafSyms t := (build_syms f t hb s1).mpr ⟨h1, hz1⟩
  have hm2 : s2 ∈ leafSyms t := (build_syms f t hb s2).mpr ⟨h2, hz2⟩
  obtain ⟨p1, hp1⟩ := (pathTo_isSome s1 t).mpr hm1
  obtain ⟨p2, hp2⟩ := (pathTo_isSome s2 t).mpr hm2
  cases t with
  | leaf c sym =>
    have e1 : s1 = sym := by
      have : s1 ∈ [sym] := hm1
      simpa using this
    have e2 : s2 = sym := by
      have : s2 ∈ [sym] := hm2
      simpa using this
    exact absurd (e1.trans e2.symm) hne
  | node c sy l r =>
    rw [encodeBits_node c sy l r s1 p1 hp1, encodeBits_node c sy l r s2 p2 hp2]
    intro hcontra
    exact hne (pathTo_ext s1 s2 (.node c sy l r) p1 p2 rr hp1 hp2 hcontra)

/-- Witness for claim C5 on the two-symbol table 65 and 66: code of 65 is
[1], code of 66 is [0], and [1] extended by [] is not [0]. -/
theorem claim_C5_witness :
    encodeBits (build (((List.replicate 256 0).set 65 1).set 66 1)) 65 ++ [] ≠
      encodeBits (build (((List.replicate 256 0).set 65 1).set 66 1)) 66 :=
  claim_C5_codes_unambiguous (((List.replicate 256 0).set 65 1).set 66 1) 65 66 []
    (by decide) (by decide) (by decide) (by decide) (by decide)

/-- Claim C1: for every frequency table and every byte sequence S using
only symbols with non-zero counts, encoding each byte of S through a
BitOutputStream (with the final flush of compress.cpp) and then decoding
the resulting byte stream with HCTree::decode over a BitInputStream,
both sides using the tree built from the table, yields exactly S; the
empty, single-symbol and many-symbol cases are all instances. -/
theorem claim_C1_roundtrip (f : List Nat) (S : List Nat) (hf : f.length = 256)
    (hS : ∀ b ∈ S, b < 256 ∧ f.getD b 0 ≠ 0) :
    ∃ st2, decodeN S.length (build f)
        (mkBIS (flushBOS (encodeAll (build f) S initBOS)).out) = some (S, st2) := by
  cases hS0 : S with
  | nil => exact ⟨mkBIS (flushBOS (encodeAll (build f) [] initBOS)).out, rfl⟩
  | cons b0 S2 =>
    subst hS0
    obtain ⟨hb0lt, hb0nz⟩ := hS b0 (List.mem_cons_self b0 S2)
    obtain ⟨t, hb⟩ := build_exists f b0 (by rw [hf]; exact hb0lt) hb0nz
    rw [hb]
    have hpath : ∀ b ∈ b0 :: S2, ∃ p, pathTo t b = some p := by
      intro b hbS
      obtain ⟨hlt, hnz⟩ := hS b hbS
      exact (pathTo_isSome b t).mpr
        ((build_syms f t hb b).mpr ⟨by rw [hf]; exact hlt, hnz⟩)
    cases t with
    | leaf c s0 =>
      have hall : ∀ b ∈ b0 :: S2, b = s0 := by
        intro b hbS
        obtain ⟨p, hp⟩ := hpath b hbS
        rw [pathTo_leaf] at hp
        split at hp
        · rename_i hbr
          omega
        · cases hp
      have hrepl : b0 :: S2 = List.replicate (b0 :: S2).length s0 :=
        List.eq_replicate_iff.mpr ⟨rfl, hall⟩
      refine ⟨mkBIS (flushBOS (encodeAll (some (.leaf c s0)) (b0 :: S2) initBOS)).out, ?_⟩
      rw [decodeN_leaf, ← hrepl]
    | node c sy l r =>
      obtain ⟨hinvW, hemitW⟩ :=
        encodeAll_emitted (some (.node c sy l r)) (b0 :: S2) initBOS init_inv
      have hinit_emit : emittedBits initBOS = [] := rfl
      rw [hinit_emit, List.nil_append] at hemitW
      have hfl := flush_bits _ hinvW
      rw [hemitW, map_mod_id _ (encBitsCat_lt _ _)] at hfl
      have hcat : encBitsCat (some (.node c sy l r)) (b0 :: S2) =
          codesCat (.node c sy l r) (b0 :: S2) := by
        apply cat_eq
        intro b hbS
        obtain ⟨p, hp⟩ := hpath b hbS
        exact ⟨p, hp, encodeBits_node c sy l r b p hp⟩
      rw [hcat] at hfl
      have hrem : remBits (mkBIS
            (flushBOS (encodeAll (some (.node c sy l r)) (b0 :: S2) initBOS)).out) =
          codesCat (.node c sy l r) (b0 :: S2) ++
            List.replicate
              ((8 - (encodeAll (some (.node c sy l r)) (b0 :: S2) initBOS).bufi) % 8) 0 := by
        rw [remBits_mkBIS, hfl]
      obtain ⟨st2, hd, hrest⟩ :=
        decodeN_codes (.node c sy l r) (b0 :: S2) _ _ hpath hrem
      exact ⟨st2, hd⟩

/-- Witness for claim C1 on the two-symbol table 65 and 66 and the
sequence [65, 66, 65]. -/
theorem claim_C1_witness :
    ∃ st2, decodeN ([65, 66, 65] : List Nat).length
        (build (((List.replicate 256 0).set 65 1).set 66 1))
        (mkBIS (flushBOS (encodeAll (build (((List.replicate 256 0).set 65 1).set 66 1))
          [65, 66, 65] initBOS)).out) = some ([65, 66, 65], st2) :=
  claim_C1_roundtrip (((List.replicate 256 0).set 65 1).set 66 1) [65, 66, 65]
    (by decide) (by decide)
